import Mathlib

/-!
Verification of the core primitives of a content-addressed block store
(`src/bitfield.rs`, `src/store.rs`, `src/tagged_cid.rs`):

* `Bitfield` — a 256-bit bitmap held as four 64-bit words, with a 32-byte
  big-endian, word-reversed wire format and word-at-a-time range-set
  operations;
* a CBOR value model with a deterministic (map-sorting) canonicalization,
  an encoder and a decoder, modelling the `serde_cbor` pipeline used by
  `MemoryStore`;
* SHA-256 and content-identifier assembly (`serialize_sha256`);
* the `MemoryStore` operations `insert` / `get` / `get_bytes`;
* the tagged link codec (`TaggedCid`).

Machine integers are modelled as `Nat` with explicit `% 2 ^ w` where
overflow matters; byte strings are `List Nat`.  Rust code paths that panic
(out-of-bounds slicing / indexing) are modelled by an explicit `crash`
result constructor, distinct from recoverable errors.
-/

/-! ### Big-endian byte serialization helpers (`byteorder::BigEndian`) -/

/-- Big-endian encoding of `w` into `k` bytes (the most significant byte
first), truncating `w` to `k` bytes.  `beBytes 8` models
`BigEndian::write_u64`. -/
def beBytes : Nat → Nat → List Nat
  | 0, _ => []
  | k + 1, w => beBytes k (w / 256) ++ [w % 256]

/-- Big-endian read of a whole byte list, most significant byte first.
`beRead` applied to an 8-byte slice models `BigEndian::read_u64`. -/
def beRead (bs : List Nat) : Nat :=
  bs.foldl (fun acc b => acc * 256 + b) 0

theorem beBytes_length (k w : Nat) : (beBytes k w).length = k := by
  induction k generalizing w with
  | zero => rfl
  | succ k ih => simp [beBytes, ih]

theorem beRead_foldl (a : Nat) (bs : List Nat) :
    bs.foldl (fun acc b => acc * 256 + b) a = a * 256 ^ bs.length + beRead bs := by
  induction bs generalizing a with
  | nil => simp [beRead]
  | cons b bs ih =>
    simp only [List.foldl_cons, beRead, List.length_cons, Nat.zero_mul, Nat.zero_add]
    rw [ih (a * 256 + b), ih b]
    ring

theorem beRead_append (xs ys : List Nat) :
    beRead (xs ++ ys) = beRead xs * 256 ^ ys.length + beRead ys := by
  unfold beRead
  rw [List.foldl_append, beRead_foldl]
  rfl

theorem beRead_beBytes (k w : Nat) : beRead (beBytes k w) = w % 256 ^ k := by
  induction k generalizing w with
  | zero => simp [beBytes, beRead, Nat.mod_one]
  | succ k ih =>
    simp only [beBytes, beRead_append]
    rw [ih]
    have h1 : beRead [w % 256] = w % 256 := by simp [beRead]
    rw [h1]
    have h2 : (256 : Nat) ^ (k + 1) = 256 * 256 ^ k := by ring
    rw [h2, Nat.mod_mul]
    have h3 : ([w % 256] : List Nat).length = 1 := rfl
    rw [h3]
    ring

theorem beRead_beBytes_of_lt {k w : Nat} (h : w < 256 ^ k) :
    beRead (beBytes k w) = w := by
  rw [beRead_beBytes, Nat.mod_eq_of_lt h]

theorem take_append_of_length {α : Type} (xs ys : List α) {k : Nat}
    (h : xs.length = k) : (xs ++ ys).take k = xs := by
  subst h; exact List.take_left xs ys

theorem drop_append_of_length {α : Type} (xs ys : List α) {k : Nat}
    (h : xs.length = k) : (xs ++ ys).drop k = ys := by
  subst h; exact List.drop_left xs ys

/-! ### Bitfield (`src/bitfield.rs`)

`Bitfield([u64; 4])`: word 0 holds bits 0–63, word 3 holds bits 192–255.
The wire format writes word 3 first, each word as 8 big-endian bytes. -/

structure Bitfield where
  w0 : Nat
  w1 : Nat
  w2 : Nat
  w3 : Nat
deriving DecidableEq, Repr

/-- All four words are in `u64` range. -/
def Bitfield.wfB (b : Bitfield) : Prop :=
  b.w0 < 2 ^ 64 ∧ b.w1 < 2 ^ 64 ∧ b.w2 < 2 ^ 64 ∧ b.w3 < 2 ^ 64

instance (b : Bitfield) : Decidable b.wfB := by
  unfold Bitfield.wfB; infer_instance

/-- `Bitfield::zero`. -/
def Bitfield.zero : Bitfield := ⟨0, 0, 0, 0⟩

/-- Array access `self.0[i]` (indices above 3 cannot arise for `u8`
indices divided by 64). -/
def Bitfield.word (b : Bitfield) : Nat → Nat
  | 0 => b.w0
  | 1 => b.w1
  | 2 => b.w2
  | _ => b.w3

/-- `Bitfield::test_bit`: `self.0[idx / 64].test_bit(idx % 64)`. -/
def Bitfield.test_bit (b : Bitfield) (idx : Nat) : Bool :=
  Nat.testBit (b.word (idx / 64)) (idx % 64)

/-- `Bitfield::serialize`, the byte payload: word 3 first, then words 2,
1, 0, each as 8 big-endian bytes. -/
def Bitfield.serialize (b : Bitfield) : List Nat :=
  beBytes 8 b.w3 ++ beBytes 8 b.w2 ++ beBytes 8 b.w1 ++ beBytes 8 b.w0

/-- Result of `Bitfield::deserialize`.  The Rust code has no error path of
its own: it either produces a bitfield or panics on an out-of-bounds
slice; `crash` models the panic. -/
inductive BitfieldDeResult where
  | ok (b : Bitfield)
  | crash
deriving DecidableEq, Repr

/-- `Bitfield::deserialize`: reads `bytes[..8]`, `bytes[8..16]`,
`bytes[16..24]`, `bytes[24..]` as big-endian words 3, 2, 1, 0.  There is
no length check in the source: an input shorter than 32 bytes makes one
of the slice operations (or `read_u64`, which needs at least 8 bytes)
panic, and an input longer than 32 bytes is accepted, `read_u64` using
only the first 8 bytes of `bytes[24..]`. -/
def Bitfield.deserialize (bs : List Nat) : BitfieldDeResult :=
  if bs.length < 32 then .crash
  else .ok ⟨beRead ((bs.drop 24).take 8), beRead ((bs.drop 16).take 8),
            beRead ((bs.drop 8).take 8), beRead (bs.take 8)⟩

/-- `bitwise::word::set_bits_leq` on a `u64`: set all bits at positions
`≤ bit` (callers below always pass `bit ≤ 63`). -/
def u64SetBitsLeq (x bit : Nat) : Nat :=
  x ||| (2 ^ (bit + 1) - 1)

/-- `u64::MAX`. -/
def u64Max : Nat := 2 ^ 64 - 1

/-- `Bitfield::set_bits_leq`: whole words below the word holding `bit`
become all-ones, that word gets a partial mask, higher words are
untouched. -/
def Bitfield.set_bits_leq (b : Bitfield) (bit : Nat) : Bitfield :=
  if bit < 64 then
    ⟨u64SetBitsLeq b.w0 bit, b.w1, b.w2, b.w3⟩
  else if bit < 128 then
    ⟨u64Max, u64SetBitsLeq b.w1 (bit - 64), b.w2, b.w3⟩
  else if bit < 192 then
    ⟨u64Max, u64Max, u64SetBitsLeq b.w2 (bit - 128), b.w3⟩
  else
    ⟨u64Max, u64Max, u64Max, u64SetBitsLeq b.w3 (bit - 192)⟩

/-- `Bitfield::set_bits_le`: a no-op at `bit = 0`, otherwise
`set_bits_leq (bit - 1)`. -/
def Bitfield.set_bits_le (b : Bitfield) (bit : Nat) : Bitfield :=
  if bit = 0 then b else b.set_bits_leq (bit - 1)

theorem testBit_u64SetBitsLeq (x k j : Nat) :
    Nat.testBit (u64SetBitsLeq x k) j = (decide (j ≤ k) || Nat.testBit x j) := by
  unfold u64SetBitsLeq
  rw [Nat.testBit_lor, Nat.testBit_two_pow_sub_one]
  rw [Bool.or_comm]
  congr 1
  simp [Nat.lt_succ_iff]

theorem testBit_u64Max {j : Nat} (h : j < 64) : Nat.testBit u64Max j = true := by
  unfold u64Max
  rw [Nat.testBit_two_pow_sub_one]
  simpa using h

theorem Bitfield.serialize_length (b : Bitfield) : b.serialize.length = 32 := by
  simp [Bitfield.serialize, beBytes_length]

theorem drop8_split (w : Nat) (rest : List Nat) :
    (beBytes 8 w ++ rest).drop 8 = rest :=
  drop_append_of_length _ _ (beBytes_length 8 w)

theorem take8_split {w : Nat} (rest : List Nat) (h : w < 2 ^ 64) :
    beRead ((beBytes 8 w ++ rest).take 8) = w := by
  rw [take_append_of_length _ _ (beBytes_length 8 w)]
  exact beRead_beBytes_of_lt (by norm_num at h ⊢; omega)

theorem Bitfield.deserialize_serialize {b : Bitfield} (h : b.wfB) :
    Bitfield.deserialize b.serialize = .ok b := by
  obtain ⟨h0, h1, h2, h3⟩ := h
  unfold Bitfield.deserialize
  rw [if_neg (by rw [Bitfield.serialize_length]; omega)]
  unfold Bitfield.serialize
  have e8 : (beBytes 8 b.w3 ++ beBytes 8 b.w2 ++ beBytes 8 b.w1 ++ beBytes 8 b.w0).drop 8
      = beBytes 8 b.w2 ++ beBytes 8 b.w1 ++ beBytes 8 b.w0 := by
    simp only [List.append_assoc]
    rw [drop8_split]
  have e16 : (beBytes 8 b.w3 ++ beBytes 8 b.w2 ++ beBytes 8 b.w1 ++ beBytes 8 b.w0).drop 16
      = beBytes 8 b.w1 ++ beBytes 8 b.w0 := by
    have h := congrArg (List.drop 8) e8
    rw [List.drop_drop] at h
    rw [h]
    simp only [List.append_assoc]
    rw [drop8_split]
  have e24 : (beBytes 8 b.w3 ++ beBytes 8 b.w2 ++ beBytes 8 b.w1 ++ beBytes 8 b.w0).drop 24
      = beBytes 8 b.w0 := by
    have h := congrArg (List.drop 8) e16
    rw [List.drop_drop] at h
    rw [h]
    rw [drop8_split]
  rw [e8, e16, e24]
  simp only [List.append_assoc]
  rw [take8_split _ h3, take8_split _ h2, take8_split _ h1]
  have : (beBytes 8 b.w0).take 8 = beBytes 8 b.w0 := by
    rw [List.take_of_length_le (by rw [beBytes_length])]
  rw [this, beRead_beBytes_of_lt (by norm_num at h0 ⊢; omega)]

theorem test_bit_set_bits_leq (b : Bitfield) (bit j : Nat) (hbit : bit < 256) (hj : j < 256) :
    (b.set_bits_leq bit).test_bit j = (decide (j ≤ bit) || b.test_bit j) := by
  have hd : j / 64 = 0 ∨ j / 64 = 1 ∨ j / 64 = 2 ∨ j / 64 = 3 := by omega
  unfold Bitfield.set_bits_leq Bitfield.test_bit
  split_ifs with h1 h2 h3
  · rcases hd with hq | hq | hq | hq
    · rw [hq]
      simp only [Bitfield.word, testBit_u64SetBitsLeq]
      congr 1
      exact decide_eq_decide.mpr (by omega)
    · rw [hq]
      simp only [Bitfield.word]
      rw [show decide (j ≤ bit) = false from decide_eq_false (by omega), Bool.false_or]
    · rw [hq]
      simp only [Bitfield.word]
      rw [show decide (j ≤ bit) = false from decide_eq_false (by omega), Bool.false_or]
    · rw [hq]
      simp only [Bitfield.word]
      rw [show decide (j ≤ bit) = false from decide_eq_false (by omega), Bool.false_or]
  · rcases hd with hq | hq | hq | hq
    · rw [hq]
      simp only [Bitfield.word]
      rw [testBit_u64Max (by omega),
        show decide (j ≤ bit) = true from decide_eq_true (by omega), Bool.true_or]
    · rw [hq]
      simp only [Bitfield.word, testBit_u64SetBitsLeq]
      congr 1
      exact decide_eq_decide.mpr (by omega)
    · rw [hq]
      simp only [Bitfield.word]
      rw [show decide (j ≤ bit) = false from decide_eq_false (by omega), Bool.false_or]
    · rw [hq]
      simp only [Bitfield.word]
      rw [show decide (j ≤ bit) = false from decide_eq_false (by omega), Bool.false_or]
  · rcases hd with hq | hq | hq | hq
    · rw [hq]
      simp only [Bitfield.word]
      rw [testBit_u64Max (by omega),
        show decide (j ≤ bit) = true from decide_eq_true (by omega), Bool.true_or]
    · rw [hq]
      simp only [Bitfield.word]
      rw [testBit_u64Max (by omega),
        show decide (j ≤ bit) = true from decide_eq_true (by omega), Bool.true_or]
    · rw [hq]
      simp only [Bitfield.word, testBit_u64SetBitsLeq]
      congr 1
      exact decide_eq_decide.mpr (by omega)
    · rw [hq]
      simp only [Bitfield.word]
      rw [show decide (j ≤ bit) = false from decide_eq_false (by omega), Bool.false_or]
  · rcases hd with hq | hq | hq | hq
    · rw [hq]
      simp only [Bitfield.word]
      rw [testBit_u64Max (by omega),
        show decide (j ≤ bit) = true from decide_eq_true (by omega), Bool.true_or]
    · rw [hq]
      simp only [Bitfield.word]
      rw [testBit_u64Max (by omega),
        show decide (j ≤ bit) = true from decide_eq_true (by omega), Bool.true_or]
    · rw [hq]
      simp only [Bitfield.word]
      rw [testBit_u64Max (by omega),
        show decide (j ≤ bit) = true from decide_eq_true (by omega), Bool.true_or]
    · rw [hq]
      simp only [Bitfield.word, testBit_u64SetBitsLeq]
      congr 1
      exact decide_eq_decide.mpr (by omega)

/-- Claim C3: serializing any Bitfield produces exactly 32 bytes,
consisting of word 3 first, then words 2, 1, 0 (reversed relative to
internal word indexing), each written as 8 big-endian bytes, and
deserializing the encoding of any Bitfield (words in u64 range)
reproduces it exactly. -/
theorem C3_bitfield_wire_format :
    (∀ b : Bitfield, b.serialize.length = 32 ∧
      b.serialize = beBytes 8 b.w3 ++ beBytes 8 b.w2 ++ beBytes 8 b.w1 ++ beBytes 8 b.w0) ∧
    (∀ b : Bitfield, b.wfB → Bitfield.deserialize b.serialize = .ok b) :=
  ⟨fun b => ⟨Bitfield.serialize_length b, rfl⟩, fun _ h => Bitfield.deserialize_serialize h⟩

/-- Witness for C3 at the concrete bitfield `⟨1, 2, 3, 2^64 - 1⟩`. -/
theorem C3_bitfield_wire_format_witness :
    (Bitfield.mk 1 2 3 (2 ^ 64 - 1)).wfB ∧
    Bitfield.deserialize (Bitfield.mk 1 2 3 (2 ^ 64 - 1)).serialize =
      .ok (Bitfield.mk 1 2 3 (2 ^ 64 - 1)) :=
  ⟨by decide, C3_bitfield_wire_format.2 _ (by decide)⟩

/-- Claim C4 concerns inputs whose length is not 32: the code has no
length check, so a 31-byte payload panics on slice indexing (`crash`),
and a 33-byte payload is silently accepted (using only the first 32
bytes) instead of producing a format error; a 32-byte payload decodes
normally.  This theorem evaluates `Bitfield::deserialize` at those
inputs. -/
theorem C4_deserialize_length_unchecked :
    Bitfield.deserialize (List.replicate 31 0) = .crash ∧
    Bitfield.deserialize (List.replicate 33 0) = .ok Bitfield.zero ∧
    Bitfield.deserialize (List.replicate 32 0) = .ok Bitfield.zero := by
  refine ⟨by decide, by decide, by decide⟩

/-- Claim C5: `set_bits_le bit` forces every bit at position `< bit` to 1
and leaves positions `≥ bit` unchanged; `set_bits_leq bit` forces every
bit at position `≤ bit` to 1 and leaves higher positions unchanged;
`set_bits_le 0` is a no-op; `set_bits_leq 63` on the zero bitmap makes
word 0 all-ones with words 1–3 still zero and `set_bits_leq 255` makes
all four words all-ones. -/
theorem C5_set_bits_semantics :
    (∀ (b : Bitfield) (bit j : Nat), bit < 256 → j < 256 →
      (b.set_bits_le bit).test_bit j = (decide (j < bit) || b.test_bit j)) ∧
    (∀ (b : Bitfield) (bit j : Nat), bit < 256 → j < 256 →
      (b.set_bits_leq bit).test_bit j = (decide (j ≤ bit) || b.test_bit j)) ∧
    (∀ b : Bitfield, b.set_bits_le 0 = b) ∧
    Bitfield.zero.set_bits_leq 63 = ⟨u64Max, 0, 0, 0⟩ ∧
    Bitfield.zero.set_bits_leq 255 = ⟨u64Max, u64Max, u64Max, u64Max⟩ := by
  refine ⟨?_, ?_, ?_, by decide, by decide⟩
  · intro b bit j hbit hj
    unfold Bitfield.set_bits_le
    split_ifs with h0
    · subst h0
      rw [show decide (j < 0) = false from decide_eq_false (by omega), Bool.false_or]
    · rw [test_bit_set_bits_leq b (bit - 1) j (by omega) hj]
      congr 1
      exact decide_eq_decide.mpr (by omega)
  · intro b bit j hbit hj
    exact test_bit_set_bits_leq b bit j hbit hj
  · intro b
    rfl

/-- Witness for C5 at a concrete bitfield, bound and probe index. -/
theorem C5_set_bits_semantics_witness :
    (92 : Nat) < 256 ∧ (100 : Nat) < 256 ∧
    ((Bitfield.mk 5 0 0 0).set_bits_leq 92).test_bit 100 =
      (decide ((100 : Nat) ≤ 92) || (Bitfield.mk 5 0 0 0).test_bit 100) :=
  ⟨by decide, by decide, C5_set_bits_semantics.2.1 (Bitfield.mk 5 0 0 0) 92 100 (by decide) (by decide)⟩

/-! ### CBOR value model (`serde_cbor`)

`Value` models the serde data model as it reaches the CBOR serializer:
unsigned integers, byte strings, text strings (as UTF-8 bytes), booleans,
null, tagged values, arrays, and maps as entry lists.  A Rust `HashMap`
surfaces as a `map` whose entry order is arbitrary (hash-iteration
order); `serde_cbor::value::to_value` normalizes it (see `canon`
below). -/

inductive Value where
  | int (n : Nat)
  | bytes (bs : List Nat)
  | text (ts : List Nat)
  | bool (b : Bool)
  | null
  | tag (t : Nat) (v : Value)
  | array (vs : List Value)
  | map (es : List (Value × Value))

def Value.deq : (a b : Value) → Decidable (a = b)
  | .int n, .int m =>
    if h : n = m then .isTrue (by rw [h]) else .isFalse (by intro hc; cases hc; exact h rfl)
  | .bytes xs, .bytes ys =>
    if h : xs = ys then .isTrue (by rw [h]) else .isFalse (by intro hc; cases hc; exact h rfl)
  | .text xs, .text ys =>
    if h : xs = ys then .isTrue (by rw [h]) else .isFalse (by intro hc; cases hc; exact h rfl)
  | .bool x, .bool y =>
    if h : x = y then .isTrue (by rw [h]) else .isFalse (by intro hc; cases hc; exact h rfl)
  | .null, .null => .isTrue rfl
  | .tag s v, .tag t w =>
    if h : s = t then
      match Value.deq v w with
      | .isTrue h2 => .isTrue (by rw [h, h2])
      | .isFalse h2 => .isFalse (by intro hc; cases hc; exact h2 rfl)
    else .isFalse (by intro hc; cases hc; exact h rfl)
  | .array vs, .array ws =>
    let rec deqL : (xs ys : List Value) → Decidable (xs = ys)
      | [], [] => .isTrue rfl
      | [], _ :: _ => .isFalse (by intro hc; cases hc)
      | _ :: _, [] => .isFalse (by intro hc; cases hc)
      | x :: xs, y :: ys =>
        match Value.deq x y, deqL xs ys with
        | .isTrue h1, .isTrue h2 => .isTrue (by rw [h1, h2])
        | .isFalse h1, _ => .isFalse (by intro hc; cases hc; exact h1 rfl)
        | _, .isFalse h2 => .isFalse (by intro hc; cases hc; exact h2 rfl)
    match deqL vs ws with
    | .isTrue h => .isTrue (by rw [h])
    | .isFalse h => .isFalse (by intro hc; cases hc; exact h rfl)
  | .map es, .map fs =>
    let rec deqP : (xs ys : List (Value × Value)) → Decidable (xs = ys)
      | [], [] => .isTrue rfl
      | [], _ :: _ => .isFalse (by intro hc; cases hc)
      | _ :: _, [] => .isFalse (by intro hc; cases hc)
      | (k1, v1) :: xs, (k2, v2) :: ys =>
        match Value.deq k1 k2, Value.deq v1 v2, deqP xs ys with
        | .isTrue h1, .isTrue h2, .isTrue h3 => .isTrue (by rw [h1, h2, h3])
        | .isFalse h1, _, _ => .isFalse (by intro hc; cases hc; exact h1 rfl)
        | _, .isFalse h2, _ => .isFalse (by intro hc; cases hc; exact h2 rfl)
        | _, _, .isFalse h3 => .isFalse (by intro hc; cases hc; exact h3 rfl)
    match deqP es fs with
    | .isTrue h => .isTrue (by rw [h])
    | .isFalse h => .isFalse (by intro hc; cases hc; exact h rfl)
  | .int _, .bytes _ => .isFalse (by intro hc; cases hc)
  | .int _, .text _ => .isFalse (by intro hc; cases hc)
  | .int _, .bool _ => .isFalse (by intro hc; cases hc)
  | .int _, .null => .isFalse (by intro hc; cases hc)
  | .int _, .tag _ _ => .isFalse (by intro hc; cases hc)
  | .int _, .array _ => .isFalse (by intro hc; cases hc)
  | .int _, .map _ => .isFalse (by intro hc; cases hc)
  | .bytes _, .int _ => .isFalse (by intro hc; cases hc)
  | .bytes _, .text _ => .isFalse (by intro hc; cases hc)
  | .bytes _, .bool _ => .isFalse (by intro hc; cases hc)
  | .bytes _, .null => .isFalse (by intro hc; cases hc)
  | .bytes _, .tag _ _ => .isFalse (by intro hc; cases hc)
  | .bytes _, .array _ => .isFalse (by intro hc; cases hc)
  | .bytes _, .map _ => .isFalse (by intro hc; cases hc)
  | .text _, .int _ => .isFalse (by intro hc; cases hc)
  | .text _, .bytes _ => .isFalse (by intro hc; cases hc)
  | .text _, .bool _ => .isFalse (by intro hc; cases hc)
  | .text _, .null => .isFalse (by intro hc; cases hc)
  | .text _, .tag _ _ => .isFalse (by intro hc; cases hc)
  | .text _, .array _ => .isFalse (by intro hc; cases hc)
  | .text _, .map _ => .isFalse (by intro hc; cases hc)
  | .bool _, .int _ => .isFalse (by intro hc; cases hc)
  | .bool _, .bytes _ => .isFalse (by intro hc; cases hc)
  | .bool _, .text _ => .isFalse (by intro hc; cases hc)
  | .bool _, .null => .isFalse (by intro hc; cases hc)
  | .bool _, .tag _ _ => .isFalse (by intro hc; cases hc)
  | .bool _, .array _ => .isFalse (by intro hc; cases hc)
  | .bool _, .map _ => .isFalse (by intro hc; cases hc)
  | .null, .int _ => .isFalse (by intro hc; cases hc)
  | .null, .bytes _ => .isFalse (by intro hc; cases hc)
  | .null, .text _ => .isFalse (by intro hc; cases hc)
  | .null, .bool _ => .isFalse (by intro hc; cases hc)
  | .null, .tag _ _ => .isFalse (by intro hc; cases hc)
  | .null, .array _ => .isFalse (by intro hc; cases hc)
  | .null, .map _ => .isFalse (by intro hc; cases hc)
  | .tag _ _, .int _ => .isFalse (by intro hc; cases hc)
  | .tag _ _, .bytes _ => .isFalse (by intro hc; cases hc)
  | .tag _ _, .text _ => .isFalse (by intro hc; cases hc)
  | .tag _ _, .bool _ => .isFalse (by intro hc; cases hc)
  | .tag _ _, .null => .isFalse (by intro hc; cases hc)
  | .tag _ _, .array _ => .isFalse (by intro hc; cases hc)
  | .tag _ _, .map _ => .isFalse (by intro hc; cases hc)
  | .array _, .int _ => .isFalse (by intro hc; cases hc)
  | .array _, .bytes _ => .isFalse (by intro hc; cases hc)
  | .array _, .text _ => .isFalse (by intro hc; cases hc)
  | .array _, .bool _ => .isFalse (by intro hc; cases hc)
  | .array _, .null => .isFalse (by intro hc; cases hc)
  | .array _, .tag _ _ => .isFalse (by intro hc; cases hc)
  | .array _, .map _ => .isFalse (by intro hc; cases hc)
  | .map _, .int _ => .isFalse (by intro hc; cases hc)
  | .map _, .bytes _ => .isFalse (by intro hc; cases hc)
  | .map _, .text _ => .isFalse (by intro hc; cases hc)
  | .map _, .bool _ => .isFalse (by intro hc; cases hc)
  | .map _, .null => .isFalse (by intro hc; cases hc)
  | .map _, .tag _ _ => .isFalse (by intro hc; cases hc)
  | .map _, .array _ => .isFalse (by intro hc; cases hc)

instance : DecidableEq Value := Value.deq

/-- CBOR head: major type (3 bits) plus the minimal-length argument
encoding used by `serde_cbor`'s serializer. -/
def encodeHead (major arg : Nat) : List Nat :=
  if arg < 24 then [major * 32 + arg]
  else if arg < 2 ^ 8 then [major * 32 + 24, arg]
  else if arg < 2 ^ 16 then (major * 32 + 25) :: beBytes 2 arg
  else if arg < 2 ^ 32 then (major * 32 + 26) :: beBytes 4 arg
  else (major * 32 + 27) :: beBytes 8 arg

mutual
/-- CBOR encoding of a value (`serde_cbor::to_vec` on an already
canonical value): major 0 unsigned integers, major 2/3 length-prefixed
byte/text strings, major 4/5 arrays and maps, major 6 tags, and the
major-7 simple values false/true/null. -/
def Value.encode : Value → List Nat
  | .int n => encodeHead 0 n
  | .bytes bs => encodeHead 2 bs.length ++ bs
  | .text ts => encodeHead 3 ts.length ++ ts
  | .bool false => encodeHead 7 20
  | .bool true => encodeHead 7 21
  | .null => encodeHead 7 22
  | .tag t v => encodeHead 6 t ++ v.encode
  | .array vs => encodeHead 4 vs.length ++ encodeList vs
  | .map es => encodeHead 5 es.length ++ encodePairs es

/-- Concatenated encodings of the elements of an array. -/
def encodeList : List Value → List Nat
  | [] => []
  | v :: vs => v.encode ++ encodeList vs

/-- Concatenated key/value encodings of the entries of a map. -/
def encodePairs : List (Value × Value) → List Nat
  | [] => []
  | (k, v) :: es => k.encode ++ v.encode ++ encodePairs es
end

mutual
/-- Shapes the Rust serializer can actually produce: integers, tags and
lengths fit in `u64`, and string entries are bytes. -/
def Value.wf : Value → Bool
  | .int n => decide (n < 2 ^ 64)
  | .bytes bs => decide (bs.length < 2 ^ 64) && bs.all (fun b => decide (b < 256))
  | .text ts => decide (ts.length < 2 ^ 64) && ts.all (fun b => decide (b < 256))
  | .bool _ => true
  | .null => true
  | .tag t v => decide (t < 2 ^ 64) && v.wf
  | .array vs => decide (vs.length < 2 ^ 64) && wfList vs
  | .map es => decide (es.length < 2 ^ 64) && wfPairs es

/-- All elements well-formed. -/
def wfList : List Value → Bool
  | [] => true
  | v :: vs => v.wf && wfList vs

/-- All entry components well-formed. -/
def wfPairs : List (Value × Value) → Bool
  | [] => true
  | (k, v) :: es => k.wf && v.wf && wfPairs es
end

mutual
/-- Nesting depth of a value; the decoder needs this much fuel. -/
def Value.depth : Value → Nat
  | .int _ => 1
  | .bytes _ => 1
  | .text _ => 1
  | .bool _ => 1
  | .null => 1
  | .tag _ v => v.depth + 1
  | .array vs => depthList vs + 1
  | .map es => depthPairs es + 1

/-- Maximum depth of the elements. -/
def depthList : List Value → Nat
  | [] => 0
  | v :: vs => max v.depth (depthList vs)

/-- Maximum depth of the entry components. -/
def depthPairs : List (Value × Value) → Nat
  | [] => 0
  | (k, v) :: es => max (max k.depth v.depth) (depthPairs es)
end

/-! ### CBOR decoder (`serde_cbor::from_slice`) -/

/-- Read `k` raw bytes as a big-endian integer. -/
def readBE (k : Nat) (bs : List Nat) : Option (Nat × List Nat) :=
  if k ≤ bs.length then some (beRead (bs.take k), bs.drop k) else none

/-- Read `k` raw bytes. -/
def readN (k : Nat) (bs : List Nat) : Option (List Nat × List Nat) :=
  if k ≤ bs.length then some (bs.take k, bs.drop k) else none

/-- Read the CBOR argument selected by the additional-information bits
`add` of a head byte. -/
def readArg (add : Nat) (bs : List Nat) : Option (Nat × List Nat) :=
  if add < 24 then some (add, bs)
  else if add = 24 then readBE 1 bs
  else if add = 25 then readBE 2 bs
  else if add = 26 then readBE 4 bs
  else if add = 27 then readBE 8 bs
  else none

/-- Read a CBOR head: major type and argument. -/
def readHead : List Nat → Option (Nat × Nat × List Nat)
  | [] => none
  | b :: rest => (readArg (b % 32) rest).map (fun p => (b / 32, p.1, p.2))

/-- One layer of the decoder; `f` decodes nested items. -/
def decodeListWith (f : List Nat → Option (Value × List Nat)) :
    Nat → List Nat → Option (List Value × List Nat)
  | 0, bs => some ([], bs)
  | n + 1, bs =>
    (f bs).bind fun p =>
      (decodeListWith f n p.2).bind fun q => some (p.1 :: q.1, q.2)

/-- Decode `n` key/value entry pairs using `f` for the components. -/
def decodePairsWith (f : List Nat → Option (Value × List Nat)) :
    Nat → List Nat → Option (List (Value × Value) × List Nat)
  | 0, bs => some ([], bs)
  | n + 1, bs =>
    (f bs).bind fun p =>
      (f p.2).bind fun q =>
        (decodePairsWith f n q.2).bind fun w => some ((p.1, q.1) :: w.1, w.2)

/-- Decode one CBOR item given a decoder `f` for strictly deeper items. -/
def decodeStep (f : List Nat → Option (Value × List Nat)) (bs : List Nat) :
    Option (Value × List Nat) :=
  (readHead bs).bind fun h =>
    let major := h.1
    let n := h.2.1
    let r := h.2.2
    if major = 0 then some (.int n, r)
    else if major = 2 then (readN n r).map (fun p => (.bytes p.1, p.2))
    else if major = 3 then (readN n r).map (fun p => (.text p.1, p.2))
    else if major = 4 then (decodeListWith f n r).map (fun p => (.array p.1, p.2))
    else if major = 5 then (decodePairsWith f n r).map (fun p => (.map p.1, p.2))
    else if major = 6 then (f r).map (fun p => (.tag n p.1, p.2))
    else if major = 7 then
      if n = 20 then some (.bool false, r)
      else if n = 21 then some (.bool true, r)
      else if n = 22 then some (.null, r)
      else none
    else none

/-- Fuel-indexed decoder: `fuel` bounds the nesting depth. -/
def decodeItem : Nat → List Nat → Option (Value × List Nat)
  | 0 => fun _ => none
  | fuel + 1 => decodeStep (decodeItem fuel)

/-- `serde_cbor::from_slice`: decode one item and require that the whole
input is consumed.  A decoded item is nested at most as deeply as the
input is long, so `length + 1` fuel is always enough. -/
def from_slice (bs : List Nat) : Option Value :=
  match decodeItem (bs.length + 1) bs with
  | some (v, []) => some v
  | _ => none

theorem readBE_beBytes {k w : Nat} (rest : List Nat) (h : w < 256 ^ k) :
    readBE k (beBytes k w ++ rest) = some (w, rest) := by
  unfold readBE
  rw [if_pos (by rw [List.length_append, beBytes_length]; omega)]
  rw [take_append_of_length _ _ (beBytes_length k w),
    drop_append_of_length _ _ (beBytes_length k w), beRead_beBytes_of_lt h]

theorem readN_append (xs rest : List Nat) :
    readN xs.length (xs ++ rest) = some (xs, rest) := by
  unfold readN
  rw [if_pos (by rw [List.length_append]; omega)]
  rw [List.take_left, List.drop_left]

theorem readHead_encodeHead (m a : Nat) (rest : List Nat) (hm : m < 8) (ha : a < 2 ^ 64) :
    readHead (encodeHead m a ++ rest) = some (m, a, rest) := by
  unfold encodeHead
  split_ifs with h1 h2 h3 h4
  · simp only [List.cons_append, List.nil_append]
    simp only [readHead]
    rw [show (m * 32 + a) % 32 = a from by omega, show (m * 32 + a) / 32 = m from by omega]
    unfold readArg
    rw [if_pos h1]
    rfl
  · simp only [List.cons_append, List.nil_append]
    simp only [readHead]
    rw [show (m * 32 + 24) % 32 = 24 from by omega, show (m * 32 + 24) / 32 = m from by omega]
    unfold readArg
    rw [if_neg (by omega), if_pos rfl]
    have : readBE 1 (a :: rest) = some (a, rest) := by
      unfold readBE
      rw [if_pos (by simp)]
      simp [beRead]
    rw [this]
    rfl
  · simp only [List.cons_append]
    simp only [readHead]
    rw [show (m * 32 + 25) % 32 = 25 from by omega, show (m * 32 + 25) / 32 = m from by omega]
    unfold readArg
    rw [if_neg (by omega), if_neg (by omega), if_pos rfl]
    rw [readBE_beBytes rest (by norm_num at h3 ⊢; omega)]
    rfl
  · simp only [List.cons_append]
    simp only [readHead]
    rw [show (m * 32 + 26) % 32 = 26 from by omega, show (m * 32 + 26) / 32 = m from by omega]
    unfold readArg
    rw [if_neg (by omega), if_neg (by omega), if_neg (by omega), if_pos rfl]
    rw [readBE_beBytes rest (by norm_num at h4 ⊢; omega)]
    rfl
  · simp only [List.cons_append]
    simp only [readHead]
    rw [show (m * 32 + 27) % 32 = 27 from by omega, show (m * 32 + 27) / 32 = m from by omega]
    unfold readArg
    rw [if_neg (by omega), if_neg (by omega), if_neg (by omega), if_neg (by omega), if_pos rfl]
    rw [readBE_beBytes rest (by norm_num at ha ⊢; omega)]
    rfl

theorem decodeListWith_encodeList (f : List Nat → Option (Value × List Nat))
    (vs : List Value) (rest : List Nat)
    (hf : ∀ v ∈ vs, ∀ r, f (v.encode ++ r) = some (v, r)) :
    decodeListWith f vs.length (encodeList vs ++ rest) = some (vs, rest) := by
  induction vs generalizing rest with
  | nil => simp [decodeListWith, encodeList]
  | cons v vs ih =>
    simp only [encodeList, List.length_cons, List.append_assoc]
    unfold decodeListWith
    rw [hf v (by simp) (encodeList vs ++ rest), Option.some_bind]
    rw [ih rest (fun w hw r => hf w (by simp [hw]) r), Option.some_bind]

theorem decodePairsWith_encodePairs (f : List Nat → Option (Value × List Nat))
    (es : List (Value × Value)) (rest : List Nat)
    (hf : ∀ e ∈ es, (∀ r, f (Value.encode e.1 ++ r) = some (e.1, r)) ∧
      (∀ r, f (Value.encode e.2 ++ r) = some (e.2, r))) :
    decodePairsWith f es.length (encodePairs es ++ rest) = some (es, rest) := by
  induction es generalizing rest with
  | nil => simp [decodePairsWith, encodePairs]
  | cons e es ih =>
    obtain ⟨k, v⟩ := e
    simp only [encodePairs, List.length_cons, List.append_assoc]
    unfold decodePairsWith
    rw [(hf (k, v) (by simp)).1 (Value.encode v ++ (encodePairs es ++ rest)), Option.some_bind]
    rw [(hf (k, v) (by simp)).2 (encodePairs es ++ rest), Option.some_bind]
    rw [ih rest (fun e he => hf e (by simp [he])), Option.some_bind]

theorem depth_le_depthList {v : Value} {vs : List Value} (h : v ∈ vs) :
    v.depth ≤ depthList vs := by
  induction vs with
  | nil => cases h
  | cons w ws ih =>
    rcases List.mem_cons.mp h with h | h
    · subst h; simp [depthList]
    · simp only [depthList]
      exact le_trans (ih h) (le_max_right _ _)

theorem depth_le_depthPairs {e : Value × Value} {es : List (Value × Value)} (h : e ∈ es) :
    e.1.depth ≤ depthPairs es ∧ e.2.depth ≤ depthPairs es := by
  induction es with
  | nil => cases h
  | cons f fs ih =>
    obtain ⟨k, v⟩ := f
    rcases List.mem_cons.mp h with h | h
    · subst h
      constructor
      · simp only [depthPairs]
        exact le_trans (le_trans (le_max_left _ _) (le_max_left _ _)) le_rfl
      · simp only [depthPairs]
        exact le_trans (le_trans (le_max_right _ _) (le_max_left _ _)) le_rfl
    · have := ih h
      simp only [depthPairs]
      exact ⟨le_trans this.1 (le_max_right _ _), le_trans this.2 (le_max_right _ _)⟩

theorem wfList_mem {v : Value} {vs : List Value} (hw : wfList vs = true) (h : v ∈ vs) :
    v.wf = true := by
  induction vs with
  | nil => cases h
  | cons w ws ih =>
    simp only [wfList, Bool.and_eq_true] at hw
    rcases List.mem_cons.mp h with h | h
    · subst h; exact hw.1
    · exact ih hw.2 h

theorem wfPairs_mem {e : Value × Value} {es : List (Value × Value)}
    (hw : wfPairs es = true) (h : e ∈ es) : e.1.wf = true ∧ e.2.wf = true := by
  induction es with
  | nil => cases h
  | cons f fs ih =>
    obtain ⟨k, v⟩ := f
    simp only [wfPairs, Bool.and_eq_true] at hw
    rcases List.mem_cons.mp h with h | h
    · subst h; exact ⟨hw.1.1, hw.1.2⟩
    · exact ih hw.2 h

theorem Value.depth_pos (v : Value) : 1 ≤ v.depth := by
  cases v <;> simp [Value.depth]

theorem decode_encode : ∀ (fuel : Nat) (v : Value), v.depth ≤ fuel → v.wf = true →
    ∀ rest, decodeItem fuel (v.encode ++ rest) = some (v, rest) := by
  intro fuel
  induction fuel with
  | zero =>
    intro v hd _ _
    exact absurd hd (by have := v.depth_pos; omega)
  | succ fuel ih =>
    intro v hd hw rest
    show decodeStep (decodeItem fuel) (v.encode ++ rest) = some (v, rest)
    cases v with
    | int n =>
      simp only [Value.wf, decide_eq_true_eq] at hw
      unfold decodeStep
      rw [show Value.encode (.int n) = encodeHead 0 n from rfl]
      rw [readHead_encodeHead 0 n rest (by omega) hw, Option.some_bind]
      simp
    | bytes bs =>
      simp only [Value.wf, Bool.and_eq_true, decide_eq_true_eq] at hw
      unfold decodeStep
      rw [show Value.encode (.bytes bs) = encodeHead 2 bs.length ++ bs from rfl]
      rw [List.append_assoc]
      rw [readHead_encodeHead 2 bs.length (bs ++ rest) (by omega) hw.1, Option.some_bind]
      simp [readN_append]
    | text ts =>
      simp only [Value.wf, Bool.and_eq_true, decide_eq_true_eq] at hw
      unfold decodeStep
      rw [show Value.encode (.text ts) = encodeHead 3 ts.length ++ ts from rfl]
      rw [List.append_assoc]
      rw [readHead_encodeHead 3 ts.length (ts ++ rest) (by omega) hw.1, Option.some_bind]
      simp [readN_append]
    | bool b =>
      unfold decodeStep
      cases b
      · rw [show Value.encode (.bool false) = encodeHead 7 20 from rfl]
        rw [readHead_encodeHead 7 20 rest (by omega) (by norm_num), Option.some_bind]
        simp
      · rw [show Value.encode (.bool true) = encodeHead 7 21 from rfl]
        rw [readHead_encodeHead 7 21 rest (by omega) (by norm_num), Option.some_bind]
        simp
    | null =>
      unfold decodeStep
      rw [show Value.encode .null = encodeHead 7 22 from rfl]
      rw [readHead_encodeHead 7 22 rest (by omega) (by norm_num), Option.some_bind]
      simp
    | tag t v =>
      simp only [Value.wf, Bool.and_eq_true, decide_eq_true_eq] at hw
      have hdv : v.depth ≤ fuel := by simp only [Value.depth] at hd; omega
      unfold decodeStep
      rw [show Value.encode (.tag t v) = encodeHead 6 t ++ v.encode from rfl]
      rw [List.append_assoc]
      rw [readHead_encodeHead 6 t (v.encode ++ rest) (by omega) hw.1, Option.some_bind]
      simp [ih v hdv hw.2 rest]
    | array vs =>
      simp only [Value.wf, Bool.and_eq_true, decide_eq_true_eq] at hw
      have hdl : depthList vs ≤ fuel := by simp only [Value.depth] at hd; omega
      have hf : ∀ w ∈ vs, ∀ r, decodeItem fuel (w.encode ++ r) = some (w, r) :=
        fun w hm r => ih w (le_trans (depth_le_depthList hm) hdl) (wfList_mem hw.2 hm) r
      unfold decodeStep
      rw [show Value.encode (.array vs) = encodeHead 4 vs.length ++ encodeList vs from rfl]
      rw [List.append_assoc]
      rw [readHead_encodeHead 4 vs.length (encodeList vs ++ rest) (by omega) hw.1,
        Option.some_bind]
      simp [decodeListWith_encodeList (decodeItem fuel) vs rest hf]
    | map es =>
      simp only [Value.wf, Bool.and_eq_true, decide_eq_true_eq] at hw
      have hdl : depthPairs es ≤ fuel := by simp only [Value.depth] at hd; omega
      have hf : ∀ e ∈ es, (∀ r, decodeItem fuel (Value.encode e.1 ++ r) = some (e.1, r)) ∧
          (∀ r, decodeItem fuel (Value.encode e.2 ++ r) = some (e.2, r)) :=
        fun e he =>
          ⟨fun r => ih e.1 (le_trans (depth_le_depthPairs he).1 hdl) (wfPairs_mem hw.2 he).1 r,
           fun r => ih e.2 (le_trans (depth_le_depthPairs he).2 hdl) (wfPairs_mem hw.2 he).2 r⟩
      unfold decodeStep
      rw [show Value.encode (.map es) = encodeHead 5 es.length ++ encodePairs es from rfl]
      rw [List.append_assoc]
      rw [readHead_encodeHead 5 es.length (encodePairs es ++ rest) (by omega) hw.1,
        Option.some_bind]
      simp [decodePairsWith_encodePairs (decodeItem fuel) es rest hf]

theorem encodeHead_length_pos (m a : Nat) : 1 ≤ (encodeHead m a).length := by
  unfold encodeHead
  split_ifs <;> simp

mutual
theorem depth_le_encLen : (v : Value) → v.depth ≤ v.encode.length
  | .int n => by
    simpa [Value.depth, Value.encode] using encodeHead_length_pos 0 n
  | .bytes bs => by
    have h2 := encodeHead_length_pos 2 bs.length
    simp only [Value.depth, Value.encode, List.length_append]
    omega
  | .text ts => by
    have h2 := encodeHead_length_pos 3 ts.length
    simp only [Value.depth, Value.encode, List.length_append]
    omega
  | .bool b => by
    cases b
    · simpa [Value.depth, Value.encode] using encodeHead_length_pos 7 20
    · simpa [Value.depth, Value.encode] using encodeHead_length_pos 7 21
  | .null => by simpa [Value.depth, Value.encode] using encodeHead_length_pos 7 22
  | .tag t v => by
    have h1 := depth_le_encLen v
    have h2 := encodeHead_length_pos 6 t
    simp only [Value.depth, Value.encode, List.length_append]
    omega
  | .array vs => by
    have h1 := depthList_le_encLen vs
    have h2 := encodeHead_length_pos 4 vs.length
    simp only [Value.depth, Value.encode, List.length_append]
    omega
  | .map es => by
    have h1 := depthPairs_le_encLen es
    have h2 := encodeHead_length_pos 5 es.length
    simp only [Value.depth, Value.encode, List.length_append]
    omega

theorem depthList_le_encLen : (vs : List Value) → depthList vs ≤ (encodeList vs).length
  | [] => by simp [depthList, encodeList]
  | v :: vs => by
    have h1 := depth_le_encLen v
    have h2 := depthList_le_encLen vs
    simp only [depthList, encodeList, List.length_append]
    omega

theorem depthPairs_le_encLen :
    (es : List (Value × Value)) → depthPairs es ≤ (encodePairs es).length
  | [] => by simp [depthPairs, encodePairs]
  | (k, v) :: es => by
    have h1 := depth_le_encLen k
    have h2 := depth_le_encLen v
    have h3 := depthPairs_le_encLen es
    simp only [depthPairs, encodePairs, List.length_append]
    omega
end

theorem from_slice_encode {v : Value} (hw : v.wf = true) : from_slice v.encode = some v := by
  unfold from_slice
  have hfuel : v.depth ≤ v.encode.length + 1 := le_trans (depth_le_encLen v) (by omega)
  have h := decode_encode (v.encode.length + 1) v hfuel hw []
  rw [List.append_nil] at h
  rw [h]

/-! ### Canonicalization (`serde_cbor::value::to_value`)

`to_value` rebuilds a value with maps held in a `BTreeMap`, i.e. with
entries in a deterministic key order independent of insertion order.
`canon` models this normalization; the key order is modelled as the
lexicographic order of the keys' canonical encodings (the external
`serde_cbor` dependency fixes some deterministic total key order; any
such order yields the determinism properties claimed by the spec). -/

/-- Lexicographic comparison of byte lists: `[] ≤ ys`; shorter prefixes
come first; otherwise compare the first differing byte. -/
def lexLE : List Nat → List Nat → Bool
  | [], _ => true
  | _ :: _, [] => false
  | a :: as, b :: bs =>
    if a < b then true
    else if b < a then false
    else lexLE as bs

theorem lexLE_total (x y : List Nat) : lexLE x y = true ∨ lexLE y x = true := by
  induction x generalizing y with
  | nil => left; rfl
  | cons a as ih =>
    cases y with
    | nil => right; rfl
    | cons b bs =>
      by_cases h1 : a < b
      · left; simp [lexLE, h1]
      · by_cases h2 : b < a
        · right; simp [lexLE, h2]
        · have hab : a = b := by omega
          subst hab
          rcases ih bs with h | h
          · left; simp [lexLE, h]
          · right; simp [lexLE, h]

theorem lexLE_antisymm : ∀ {x y : List Nat}, lexLE x y = true → lexLE y x = true → x = y := by
  intro x
  induction x with
  | nil =>
    intro y h1 h2
    cases y with
    | nil => rfl
    | cons b bs => simp [lexLE] at h2
  | cons a as ih =>
    intro y h1 h2
    cases y with
    | nil => simp [lexLE] at h1
    | cons b bs =>
      by_cases hab : a < b
      · simp [lexLE, hab, Nat.lt_asymm hab] at h2
      · by_cases hba : b < a
        · simp [lexLE, hba, Nat.lt_asymm hba] at h1
        · have heq : a = b := by omega
          subst heq
          simp only [lexLE, lt_irrefl, if_false] at h1 h2
          rw [ih h1 h2]

/-- Sort key of a map entry: the canonical encoding of its key. -/
def entryKey (e : Value × Value) : List Nat := e.1.encode

/-- Entry order used by the canonical map normalization. -/
def keyLE (e f : Value × Value) : Bool := lexLE (entryKey e) (entryKey f)

/-- Ordered insertion of an entry into a key-sorted entry list. -/
def insEntry (e : Value × Value) : List (Value × Value) → List (Value × Value)
  | [] => [e]
  | f :: fs => if keyLE e f then e :: f :: fs else f :: insEntry e fs

/-- Insertion sort of map entries by key. -/
def sortEntries : List (Value × Value) → List (Value × Value)
  | [] => []
  | e :: es => insEntry e (sortEntries es)

theorem lexLE_trans : ∀ {x y z : List Nat},
    lexLE x y = true → lexLE y z = true → lexLE x z = true := by
  intro x
  induction x with
  | nil => intro y z h1 h2; rfl
  | cons a as ih =>
    intro y z h1 h2
    cases y with
    | nil => simp [lexLE] at h1
    | cons b bs =>
      cases z with
      | nil => simp [lexLE] at h2
      | cons c cs =>
        by_cases hab : a < b
        · have hbc : b ≤ c := by
            by_contra hc
            simp [lexLE, show ¬b < c from by omega, show c < b from by omega] at h2
          simp [lexLE, show a < c from by omega]
        · by_cases hba : b < a
          · simp [lexLE, hba, Nat.lt_asymm hba] at h1
          · have heq : a = b := by omega
            subst heq
            simp only [lexLE, lt_irrefl, if_false] at h1
            by_cases hac : a < c
            · simp [lexLE, hac]
            · by_cases hca : c < a
              · simp [lexLE, hca, Nat.lt_asymm hca] at h2
              · have heq2 : a = c := by omega
                subst heq2
                simp only [lexLE, lt_irrefl, if_false] at h2 ⊢
                exact ih h1 h2

theorem keyLE_total (e f : Value × Value) : keyLE e f = true ∨ keyLE f e = true :=
  lexLE_total (entryKey e) (entryKey f)

theorem keyLE_trans {e f g : Value × Value} (h1 : keyLE e f = true) (h2 : keyLE f g = true) :
    keyLE e g = true :=
  lexLE_trans h1 h2

theorem insEntry_perm (e : Value × Value) (l : List (Value × Value)) :
    List.Perm (insEntry e l) (e :: l) := by
  induction l with
  | nil => exact List.Perm.refl _
  | cons f fs ih =>
    unfold insEntry
    split_ifs
    · exact List.Perm.refl _
    · exact List.Perm.trans (List.Perm.cons f ih) (List.Perm.swap e f fs)

theorem sortEntries_perm (l : List (Value × Value)) : List.Perm (sortEntries l) l := by
  induction l with
  | nil => exact List.Perm.refl _
  | cons e es ih =>
    exact List.Perm.trans (insEntry_perm e (sortEntries es)) (List.Perm.cons e ih)

theorem insEntry_pairwise {e : Value × Value} {l : List (Value × Value)}
    (h : l.Pairwise (fun a b => keyLE a b = true)) :
    (insEntry e l).Pairwise (fun a b => keyLE a b = true) := by
  induction l with
  | nil => simp [insEntry]
  | cons f fs ih =>
    rcases List.pairwise_cons.mp h with ⟨hf, hfs⟩
    unfold insEntry
    split_ifs with hef
    · refine List.pairwise_cons.mpr ⟨?_, h⟩
      intro g hg
      rcases List.mem_cons.mp hg with hg | hg
      · subst hg; exact hef
      · exact keyLE_trans hef (hf g hg)
    · refine List.pairwise_cons.mpr ⟨?_, ih hfs⟩
      intro g hg
      have hmem := (insEntry_perm e fs).mem_iff.mp hg
      rcases List.mem_cons.mp hmem with hg2 | hg2
      · rw [hg2]
        rcases keyLE_total e f with h2 | h2
        · exact absurd h2 hef
        · exact h2
      · exact hf g hg2

theorem sortEntries_pairwise (l : List (Value × Value)) :
    (sortEntries l).Pairwise (fun a b => keyLE a b = true) := by
  induction l with
  | nil => simp [sortEntries]
  | cons e es ih => exact insEntry_pairwise ih

theorem insEntry_of_le {e f : Value × Value} {fs : List (Value × Value)}
    (h : keyLE e f = true) : insEntry e (f :: fs) = e :: f :: fs := by
  unfold insEntry
  rw [if_pos h]

theorem sortEntries_sorted_id {l : List (Value × Value)}
    (h : l.Pairwise (fun a b => keyLE a b = true)) : sortEntries l = l := by
  induction l with
  | nil => rfl
  | cons e es ih =>
    rcases List.pairwise_cons.mp h with ⟨he, hes⟩
    show insEntry e (sortEntries es) = e :: es
    rw [ih hes]
    cases es with
    | nil => rfl
    | cons f fs => exact insEntry_of_le (he f (by simp))

mutual
/-- `serde_cbor::value::to_value`: rebuild a value with every map's
entries in canonical key order (and entries canonicalized recursively),
removing the structural nondeterminism of hash-map iteration order. -/
def canon : Value → Value
  | .int n => .int n
  | .bytes bs => .bytes bs
  | .text ts => .text ts
  | .bool b => .bool b
  | .null => .null
  | .tag t v => .tag t (canon v)
  | .array vs => .array (canonList vs)
  | .map es => .map (sortEntries (canonPairs es))

/-- Canonicalize each element. -/
def canonList : List Value → List Value
  | [] => []
  | v :: vs => canon v :: canonList vs

/-- Canonicalize both components of each entry. -/
def canonPairs : List (Value × Value) → List (Value × Value)
  | [] => []
  | (k, v) :: es => (canon k, canon v) :: canonPairs es
end

theorem canonPairs_eq_map (es : List (Value × Value)) :
    canonPairs es = es.map (fun e => (canon e.1, canon e.2)) := by
  induction es with
  | nil => rfl
  | cons e es ih =>
    obtain ⟨k, v⟩ := e
    simp [canonPairs, ih]

theorem wfList_iff {vs : List Value} :
    wfList vs = true ↔ ∀ v ∈ vs, v.wf = true := by
  induction vs with
  | nil => simp [wfList]
  | cons v vs ih => simp [wfList, Bool.and_eq_true, ih]

theorem wfPairs_iff {es : List (Value × Value)} :
    wfPairs es = true ↔ ∀ e ∈ es, e.1.wf = true ∧ e.2.wf = true := by
  induction es with
  | nil => simp [wfPairs]
  | cons e es ih =>
    obtain ⟨k, v⟩ := e
    simp [wfPairs, Bool.and_eq_true, ih, and_assoc]

theorem canonList_length (vs : List Value) : (canonList vs).length = vs.length := by
  induction vs with
  | nil => rfl
  | cons v vs ih => simp [canonList, ih]

mutual
theorem canon_wf : (v : Value) → v.wf = true → (canon v).wf = true
  | .int n, h => h
  | .bytes bs, h => h
  | .text ts, h => h
  | .bool b, h => h
  | .null, h => h
  | .tag t v, h => by
    simp only [canon, Value.wf, Bool.and_eq_true] at h ⊢
    exact ⟨h.1, canon_wf v h.2⟩
  | .array vs, h => by
    simp only [canon, Value.wf, Bool.and_eq_true, decide_eq_true_eq] at h ⊢
    refine ⟨by rw [canonList_length vs]; exact h.1, canonList_wf vs h.2⟩
  | .map es, h => by
    simp only [canon, Value.wf, Bool.and_eq_true, decide_eq_true_eq] at h ⊢
    constructor
    · rw [(sortEntries_perm (canonPairs es)).length_eq, canonPairs_eq_map,
        List.length_map]
      exact h.1
    · rw [wfPairs_iff]
      intro e he
      have he2 := (sortEntries_perm (canonPairs es)).mem_iff.mp he
      exact (wfPairs_iff.mp (canonPairs_wf es h.2)) e he2

theorem canonList_wf : (vs : List Value) → wfList vs = true → wfList (canonList vs) = true
  | [], h => h
  | v :: vs, h => by
    simp only [canonList, wfList, Bool.and_eq_true] at h ⊢
    exact ⟨canon_wf v h.1, canonList_wf vs h.2⟩

theorem canonPairs_wf : (es : List (Value × Value)) → wfPairs es = true →
    wfPairs (canonPairs es) = true
  | [], h => h
  | (k, v) :: es, h => by
    simp only [canonPairs, wfPairs, Bool.and_eq_true] at h ⊢
    exact ⟨⟨canon_wf k h.1.1, canon_wf v h.1.2⟩, canonPairs_wf es h.2⟩
end


theorem canonPairs_fix {l : List (Value × Value)}
    (h : ∀ e ∈ l, canon e.1 = e.1 ∧ canon e.2 = e.2) : canonPairs l = l := by
  induction l with
  | nil => rfl
  | cons e es ih =>
    obtain ⟨k, v⟩ := e
    have h1 := h (k, v) (by simp)
    simp only [canonPairs]
    rw [show canon k = k from h1.1, show canon v = v from h1.2,
      ih (fun f hf => h f (by simp [hf]))]

mutual
theorem canon_idem : (v : Value) → canon (canon v) = canon v
  | .int _ => rfl
  | .bytes _ => rfl
  | .text _ => rfl
  | .bool _ => rfl
  | .null => rfl
  | .tag t v => by
    simp only [canon]
    rw [canon_idem v]
  | .array vs => by
    simp only [canon]
    rw [canonList_idem vs]
  | .map es => by
    simp only [canon]
    rw [canonPairs_fix
      (fun e he => canonPairs_mem_fix es e ((sortEntries_perm (canonPairs es)).mem_iff.mp he))]
    rw [sortEntries_sorted_id (sortEntries_pairwise (canonPairs es))]

theorem canonList_idem : (vs : List Value) → canonList (canonList vs) = canonList vs
  | [] => rfl
  | v :: vs => by
    simp only [canonList]
    rw [canon_idem v, canonList_idem vs]

theorem canonPairs_mem_fix : (es : List (Value × Value)) → ∀ e ∈ canonPairs es,
    canon e.1 = e.1 ∧ canon e.2 = e.2
  | [], e, he => absurd he (by simp [canonPairs])
  | (k, v) :: es, e, he => by
    simp only [canonPairs, List.mem_cons] at he
    rcases he with he | he
    · rw [he]
      exact ⟨canon_idem k, canon_idem v⟩
    · exact canonPairs_mem_fix es e he
end

/-- Logical equality of values: equality of canonical forms.  This is the
equality the Rust type level sees (a `HashMap` rebuilt from decoded
entries is equal to the original regardless of entry order). -/
def Value.equiv (a b : Value) : Prop := canon a = canon b

/-! ### SHA-256 (`sha2::Sha256::digest`), as specified by FIPS 180-4.
All 32-bit words are `Nat` reduced `% 2 ^ 32`. -/

/-- The 64 SHA-256 round constants. -/
def sha256K : List Nat :=
  [1116352408, 1899447441, 3049323471, 3921009573, 961987163, 1508970993,
   2453635748, 2870763221, 3624381080, 310598401, 607225278, 1426881987,
   1925078388, 2162078206, 2614888103, 3248222580, 3835390401, 4022224774,
   264347078, 604807628, 770255983, 1249150122, 1555081692, 1996064986,
   2554220882, 2821834349, 2952996808, 3210313671, 3336571891, 3584528711,
   113926993, 338241895, 666307205, 773529912, 1294757372, 1396182291,
   1695183700, 1986661051, 2177026350, 2456956037, 2730485921, 2820302411,
   3259730800, 3345764771, 3516065817, 3600352804, 4094571909, 275423344,
   430227734, 506948616, 659060556, 883997877, 958139571, 1322822218,
   1537002063, 1747873779, 1955562222, 2024104815, 2227730452, 2361852424,
   2428436474, 2756734187, 3204031479, 3329325298]

/-- The SHA-256 initial hash value. -/
def sha256H0 : List Nat :=
  [1779033703, 3144134277, 1013904242, 2773480762,
   1359893119, 2600822924, 528734635, 1541459225]

/-- Right rotation of a 32-bit word. -/
def rotr32 (n x : Nat) : Nat := ((x >>> n) ||| (x <<< (32 - n))) % 2 ^ 32

/-- Bitwise complement of a 32-bit word. -/
def not32 (x : Nat) : Nat := (2 ^ 32 - 1) ^^^ x

/-- FIPS 180-4 Σ0. -/
def bsig0 (x : Nat) : Nat := rotr32 2 x ^^^ rotr32 13 x ^^^ rotr32 22 x

/-- FIPS 180-4 Σ1. -/
def bsig1 (x : Nat) : Nat := rotr32 6 x ^^^ rotr32 11 x ^^^ rotr32 25 x

/-- FIPS 180-4 σ0. -/
def ssig0 (x : Nat) : Nat := rotr32 7 x ^^^ rotr32 18 x ^^^ (x >>> 3)

/-- FIPS 180-4 σ1. -/
def ssig1 (x : Nat) : Nat := rotr32 17 x ^^^ rotr32 19 x ^^^ (x >>> 10)

/-- SHA-256 padding: a 0x80 byte, zeros to 56 mod 64, and the bit length
as 8 big-endian bytes. -/
def sha256Pad (msg : List Nat) : List Nat :=
  msg ++ [128] ++ List.replicate ((119 - msg.length % 64) % 64) 0 ++ beBytes 8 (msg.length * 8)

/-- Split into 64-byte blocks (the first argument is fuel, at least the
list length). -/
def chunks64 : Nat → List Nat → List (List Nat)
  | 0, _ => []
  | _ + 1, [] => []
  | n + 1, bs => bs.take 64 :: chunks64 n (bs.drop 64)

/-- Extend the 16 message-schedule words to 64. -/
def sha256Extend : Nat → List Nat → List Nat
  | 0, w => w
  | n + 1, w =>
    let t := w.length
    let x := (ssig1 (w.getD (t - 2) 0) + w.getD (t - 7) 0 +
      ssig0 (w.getD (t - 15) 0) + w.getD (t - 16) 0) % 2 ^ 32
    sha256Extend n (w ++ [x])

/-- Message schedule of one 64-byte block. -/
def sha256Schedule (block : List Nat) : List Nat :=
  sha256Extend 48 ((List.range 16).map fun i => beRead ((block.drop (4 * i)).take 4))

/-- One compression round; the state is the 8 working variables a–h. -/
def sha256Round (st : List Nat) (kw : Nat × Nat) : List Nat :=
  let a := st.getD 0 0
  let b := st.getD 1 0
  let c := st.getD 2 0
  let d := st.getD 3 0
  let e := st.getD 4 0
  let f := st.getD 5 0
  let g := st.getD 6 0
  let h := st.getD 7 0
  let t1 := (h + bsig1 e + ((e &&& f) ^^^ (not32 e &&& g)) + kw.1 + kw.2) % 2 ^ 32
  let t2 := (bsig0 a + ((a &&& b) ^^^ (a &&& c) ^^^ (b &&& c))) % 2 ^ 32
  [(t1 + t2) % 2 ^ 32, a, b, c, (d + t1) % 2 ^ 32, e, f, g]

/-- Compress one block into the running hash. -/
def sha256Compress (h : List Nat) (block : List Nat) : List Nat :=
  let st := (sha256K.zip (sha256Schedule block)).foldl sha256Round h
  (h.zip st).map fun p => (p.1 + p.2) % 2 ^ 32

/-- SHA-256 digest of a byte message, as 32 bytes. -/
def sha256 (msg : List Nat) : List Nat :=
  let padded := sha256Pad msg
  (((chunks64 padded.length padded).foldl sha256Compress sha256H0).map (beBytes 4)).flatten

/-! ### Content identifiers (`cid::Cid`) and tagged links
(`src/tagged_cid.rs`)

Binary layout per the spec: a version varint (fixed 1), a codec varint
(DagCBOR), then the multihash `[hash-code, digest-length] ++ digest`. -/

structure Cid where
  version : Nat
  codec : Nat
  hash : List Nat
deriving DecidableEq, Repr

structure TaggedCid where
  cid : Cid
deriving DecidableEq, Repr

/-- `cid::Codec::DagCBOR`. -/
def codecDagCBOR : Nat := 0x71

/-- `multihash::Hash::SHA2256.code()`. -/
def mhSHA2256Code : Nat := 0x12

/-- `multihash::Hash::SHA2256.size()`. -/
def mhSHA2256Size : Nat := 32

/-- Unsigned LEB128 encoding (10 groups of fuel cover any u64). -/
def varintEncodeF : Nat → Nat → List Nat
  | 0, _ => []
  | f + 1, n => if n < 128 then [n] else (n % 128 + 128) :: varintEncodeF f (n / 128)

/-- Unsigned LEB128 encoding. -/
def varintEncode (n : Nat) : List Nat := varintEncodeF 10 n

/-- Unsigned LEB128 decoding. -/
def varintDecode : List Nat → Option (Nat × List Nat)
  | [] => none
  | b :: rest =>
    if b < 128 then some (b, rest)
    else (varintDecode rest).map fun p => (b % 128 + 128 * p.1, p.2)

/-- `Cid::to_bytes`: version varint, codec varint, multihash bytes. -/
def Cid.to_bytes (c : Cid) : List Nat :=
  varintEncode c.version ++ varintEncode c.codec ++ c.hash

/-- Codecs the `cid` crate's table recognizes (only `DagCBOR` is
exercised here). -/
def codecOk (c : Nat) : Bool := c = 0x55 || c = 0x70 || c = 0x71

/-- Multihash validation: a known hash code, a length byte, and exactly
that many digest bytes. -/
def multihashOk : List Nat → Bool
  | code :: size :: digest =>
    (code = 0x11 || code = 0x12 || code = 0x13 || code = 0x40 || code = 0x41) &&
      decide (digest.length = size)
  | _ => false

/-- `Cid::from` on bytes: the 34-byte `0x12 0x20 …` form is CIDv0;
otherwise a version varint (which must be 1), a codec varint, and a
multihash.  A leading byte that yields any other version is a parse
error. -/
def cidFromBytes (bs : List Nat) : Option Cid :=
  if bs.length = 34 && decide (bs.take 2 = [0x12, 0x20]) then
    some ⟨0, 0x70, bs⟩
  else
    (varintDecode bs).bind fun p =>
      if p.1 = 1 then
        (varintDecode p.2).bind fun q =>
          if codecOk q.1 && multihashOk q.2 then some ⟨1, q.1, q.2⟩ else none
      else none

/-- `TaggedCid::serialize`: a CBOR value with tag 42 whose byte-string
payload is the binary-multibase marker 0 followed by `Cid::to_bytes`. -/
def TaggedCid.serialize (t : TaggedCid) : Value :=
  .tag 42 (.bytes (0 :: t.cid.to_bytes))

/-- Failure modes of link decoding. -/
inductive LinkError where
  | invalidTag (t : Nat)
  | invalidLinkBase
  | cidParse
  | notTagged
deriving DecidableEq, Repr

/-- Result of `TaggedCid::deserialize`: success, a typed decode error, or
a panic (`crash`) from indexing `bytes[0]` on an empty payload. -/
inductive LinkDeResult where
  | ok (t : TaggedCid)
  | err (e : LinkError)
  | crash
deriving DecidableEq, Repr

/-- `TaggedCid::deserialize` on an already CBOR-decoded value: require
tag 42, check `bytes[0] == 0` (an out-of-bounds panic if the payload is
empty), then parse the **entire** payload — including the multibase
marker byte — with `Cid::from`, exactly as `Cid::from(bytes)` is called
in the source. -/
def TaggedCid.deserialize : Value → LinkDeResult
  | .tag t (.bytes bs) =>
    if t ≠ 42 then .err (.invalidTag t)
    else
      match bs with
      | [] => .crash
      | b0 :: _ =>
        if b0 ≠ 0 then .err .invalidLinkBase
        else
          match cidFromBytes bs with
          | some c => .ok ⟨c⟩
          | none => .err .cidParse
  | _ => .err .notTagged

/-! ### MemoryStore (`src/store.rs`) -/

/-- Store errors: a value that cannot be canonicalized/encoded, or stored
bytes that do not decode. -/
inductive StoreError where
  | encodeError
  | decodeError
deriving DecidableEq, Repr

/-- `serialize_sha256`: canonicalize (`to_value`), encode (`to_vec`),
digest with SHA-256, and assemble the multihash
`[code, size] ++ digest` and the CIDv1 with the DagCBOR codec. -/
def serialize_sha256 (v : Value) : Except StoreError (TaggedCid × List Nat) :=
  let cv := canon v
  if cv.wf then
    let bytes := cv.encode
    .ok (⟨⟨1, codecDagCBOR, mhSHA2256Code :: mhSHA2256Size :: sha256 bytes⟩⟩, bytes)
  else .error .encodeError

/-- The in-memory store: a keyed collection of blocks (the `HashMap`
behind the `RwLock`). -/
structure MemoryStore where
  data : List (TaggedCid × List Nat)
deriving DecidableEq, Repr

/-- `MemoryStore::default()`. -/
def MemoryStore.empty : MemoryStore := ⟨[]⟩

/-- `HashMap::get`. -/
def lookupData : List (TaggedCid × List Nat) → TaggedCid → Option (List Nat)
  | [], _ => none
  | (k, v) :: rest, c => if k = c then some v else lookupData rest c

/-- `HashMap::insert`: the new binding replaces any previous binding of
the same key. -/
def insertData (l : List (TaggedCid × List Nat)) (k : TaggedCid) (v : List Nat) :
    List (TaggedCid × List Nat) :=
  (k, v) :: l.filter (fun p => decide (p.1 ≠ k))

/-- `MemoryStore::insert`: serialize first; only on success write the
canonical bytes under the computed identifier.  The store is returned
alongside the result to model the `&self` mutation. -/
def MemoryStore.insert (s : MemoryStore) (v : Value) :
    Except StoreError TaggedCid × MemoryStore :=
  match serialize_sha256 v with
  | .error e => (.error e, s)
  | .ok (c, bytes) => (.ok c, ⟨insertData s.data c bytes⟩)

/-- `MemoryStore::get`: look up, decode on hit (`DecodeError` on decode
failure), `none` on miss. -/
def MemoryStore.get (s : MemoryStore) (c : TaggedCid) : Except StoreError (Option Value) :=
  match lookupData s.data c with
  | some bytes =>
    match from_slice bytes with
    | some v => .ok (some v)
    | none => .error .decodeError
  | none => .ok none

/-- `MemoryStore::get_bytes`: raw stored bytes, never decoded. -/
def MemoryStore.get_bytes (s : MemoryStore) (c : TaggedCid) :
    Except StoreError (Option (List Nat)) :=
  .ok (lookupData s.data c)

/-- State-passing form of `get`, making explicit that a read returns the
store unchanged. -/
def MemoryStore.getSt (s : MemoryStore) (c : TaggedCid) :
    Except StoreError (Option Value) × MemoryStore :=
  (s.get c, s)

/-- State-passing form of `get_bytes`. -/
def MemoryStore.get_bytesSt (s : MemoryStore) (c : TaggedCid) :
    Except StoreError (Option (List Nat)) × MemoryStore :=
  (s.get_bytes c, s)

/-- Store states reachable from the empty store through the public
operations (reads do not change the state; `insert` steps cover both the
success and the failure path). -/
inductive Reachable : MemoryStore → Prop where
  | empty : Reachable MemoryStore.empty
  | insert (s : MemoryStore) (v : Value) : Reachable s → Reachable (s.insert v).2

theorem serialize_sha256_ok {v : Value} {c : TaggedCid} {bytes : List Nat}
    (h : serialize_sha256 v = .ok (c, bytes)) :
    (canon v).wf = true ∧ bytes = (canon v).encode ∧
      c = ⟨⟨1, codecDagCBOR, mhSHA2256Code :: mhSHA2256Size :: sha256 bytes⟩⟩ := by
  simp only [serialize_sha256] at h
  split_ifs at h with hwf
  · simp only [Except.ok.injEq, Prod.mk.injEq] at h
    obtain ⟨hc, hb⟩ := h
    subst hb
    exact ⟨hwf, rfl, hc.symm⟩

theorem MemoryStore.insert_ok {s : MemoryStore} {v : Value} {c : TaggedCid}
    {bytes : List Nat} (h : serialize_sha256 v = .ok (c, bytes)) :
    s.insert v = (.ok c, ⟨insertData s.data c bytes⟩) := by
  unfold MemoryStore.insert
  rw [h]

theorem MemoryStore.insert_err {s : MemoryStore} {v : Value} {e : StoreError}
    (h : serialize_sha256 v = .error e) : s.insert v = (.error e, s) := by
  unfold MemoryStore.insert
  rw [h]

theorem lookupData_insertData (l : List (TaggedCid × List Nat)) (k : TaggedCid)
    (v : List Nat) : lookupData (insertData l k v) k = some v := by
  unfold insertData lookupData
  rw [if_pos rfl]

theorem serialize_sha256_of_wf {v : Value} (hw : v.wf = true) :
    serialize_sha256 v =
      .ok (⟨⟨1, codecDagCBOR, mhSHA2256Code :: mhSHA2256Size :: sha256 (canon v).encode⟩⟩,
        (canon v).encode) := by
  simp only [serialize_sha256]
  rw [if_pos (canon_wf v hw)]

/-- The `("hello", 3)` tuple of the spec's end-to-end test, in the serde
data model: a two-element array of a text string and an integer. -/
def helloPair : Value := .array [.text [104, 101, 108, 108, 111], .int 3]

/-- Claim C1: inserting a (well-formed) value and getting it back by the
returned identifier yields exactly the stored value's canonical form,
which is logically equal to the inserted value; in particular inserting
`("hello", 3)` into any store and retrieving by the returned identifier
yields exactly `("hello", 3)`. -/
theorem C1_store_roundtrip :
    (∀ (s : MemoryStore) (v : Value), v.wf = true →
      ∃ c : TaggedCid, (s.insert v).1 = .ok c ∧
        (s.insert v).2.get c = .ok (some (canon v)) ∧ Value.equiv (canon v) v) ∧
    (∀ s : MemoryStore,
      ∃ c : TaggedCid, (s.insert helloPair).1 = .ok c ∧
        (s.insert helloPair).2.get c = .ok (some helloPair)) := by
  have main : ∀ (s : MemoryStore) (v : Value), v.wf = true →
      ∃ c : TaggedCid, (s.insert v).1 = .ok c ∧
        (s.insert v).2.get c = .ok (some (canon v)) ∧ Value.equiv (canon v) v := by
    intro s v hw
    have hser := serialize_sha256_of_wf hw
    refine ⟨⟨⟨1, codecDagCBOR, mhSHA2256Code :: mhSHA2256Size :: sha256 (canon v).encode⟩⟩,
      ?_, ?_, canon_idem v⟩
    · rw [MemoryStore.insert_ok hser]
    · rw [MemoryStore.insert_ok hser]
      unfold MemoryStore.get
      simp only [lookupData_insertData, from_slice_encode (canon_wf v hw)]
  refine ⟨main, fun s => ?_⟩
  obtain ⟨c, h1, h2, _⟩ := main s helloPair (by decide)
  exact ⟨c, h1, by rw [show canon helloPair = helloPair from rfl] at h2; exact h2⟩

/-- Witness for C1: the end-to-end pair inserted into the empty store. -/
theorem C1_store_roundtrip_witness :
    Value.wf helloPair = true ∧
    (∃ c : TaggedCid, (MemoryStore.empty.insert helloPair).1 = .ok c ∧
      (MemoryStore.empty.insert helloPair).2.get c = .ok (some (canon helloPair)) ∧
        Value.equiv (canon helloPair) helloPair) :=
  ⟨by decide, C1_store_roundtrip.1 MemoryStore.empty helloPair (by decide)⟩

/-- Claim C8: if canonicalization/encoding of a value fails,
`insert` returns the `EncodeError` and leaves the store's keyed
collection exactly as it was — no partial write. -/
theorem C8_insert_atomicity :
    ∀ (s : MemoryStore) (v : Value) (e : StoreError),
      serialize_sha256 v = .error e → s.insert v = (.error e, s) :=
  fun _ _ _ h => MemoryStore.insert_err h

/-- Witness for C8: an integer out of the u64 range cannot be encoded;
inserting it into the empty store fails and the store is unchanged. -/
theorem C8_insert_atomicity_witness :
    serialize_sha256 (.int (2 ^ 64)) = .error .encodeError ∧
    MemoryStore.empty.insert (.int (2 ^ 64)) = (.error .encodeError, MemoryStore.empty) :=
  ⟨rfl, C8_insert_atomicity MemoryStore.empty _ _ rfl⟩

/-- The key/content invariant of the store: every entry holds the
canonical encoding of some value, and its key is the CIDv1 (DagCBOR
codec) whose multihash is `[sha256-code, 32] ++ SHA-256(stored bytes)`. -/
def StoreInv (s : MemoryStore) : Prop :=
  ∀ p ∈ s.data,
    (∃ v : Value, p.2 = (canon v).encode ∧ (canon v).wf = true) ∧
    p.1 = ⟨⟨1, codecDagCBOR, mhSHA2256Code :: mhSHA2256Size :: sha256 p.2⟩⟩

/-- Claim C10: every store state reachable from the empty store satisfies
the key/content invariant — `insert` establishes it for the entry it
writes — and the read operations return the store unchanged. -/
theorem C10_store_invariant :
    (∀ s : MemoryStore, Reachable s → StoreInv s) ∧
    (∀ (s : MemoryStore) (c : TaggedCid),
      (s.getSt c).2 = s ∧ (s.get_bytesSt c).2 = s) := by
  constructor
  · intro s hs
    induction hs with
    | empty => intro p hp; cases hp
    | insert s v _ ih =>
      cases hser : serialize_sha256 v with
      | error e =>
        rw [MemoryStore.insert_err hser]
        exact ih
      | ok cb =>
        obtain ⟨c, bytes⟩ := cb
        obtain ⟨hwf, hb, hc⟩ := serialize_sha256_ok hser
        rw [MemoryStore.insert_ok hser]
        intro p hp
        rcases List.mem_cons.mp hp with hp | hp
        · rw [hp]
          exact ⟨⟨v, hb, hwf⟩, hc⟩
        · exact ih p (List.mem_of_mem_filter hp)
  · intro s c
    exact ⟨rfl, rfl⟩

/-- Witness for C10 at the empty store. -/
theorem C10_store_invariant_witness :
    Reachable MemoryStore.empty ∧ StoreInv MemoryStore.empty :=
  ⟨Reachable.empty, C10_store_invariant.1 MemoryStore.empty Reachable.empty⟩

theorem sortEntries_eq_of_perm {X Y : List (Value × Value)} (hp : List.Perm X Y)
    (hnd : (X.map entryKey).Nodup) : sortEntries X = sortEntries Y := by
  have hndY : (Y.map entryKey).Nodup := (hp.map entryKey).nodup_iff.mp hnd
  have hperm : List.Perm (sortEntries X) (sortEntries Y) :=
    ((sortEntries_perm X).trans hp).trans (sortEntries_perm Y).symm
  have hr : IsAntisymm (Value × Value)
      (fun a b => keyLE a b = true ∧ entryKey a ≠ entryKey b) :=
    ⟨fun a b h1 h2 => absurd (lexLE_antisymm h1.1 h2.1) h1.2⟩
  have sorted_of : ∀ Z : List (Value × Value), (Z.map entryKey).Nodup →
      List.Sorted (fun a b => keyLE a b = true ∧ entryKey a ≠ entryKey b) (sortEntries Z) := by
    intro Z hz
    have h1 : (sortEntries Z).Pairwise (fun a b => keyLE a b = true) :=
      sortEntries_pairwise Z
    have h2 : ((sortEntries Z).map entryKey).Nodup :=
      ((sortEntries_perm Z).map entryKey).nodup_iff.mpr hz
    have h3 : (sortEntries Z).Pairwise (fun a b => entryKey a ≠ entryKey b) :=
      List.pairwise_map.mp h2
    exact h1.and h3
  exact @List.eq_of_perm_of_sorted _ _ hr _ _ hperm (sorted_of X hnd) (sorted_of Y hndY)

/-- Claim C2: the identifier returned by `insert` is a function of the
value alone (two calls return the identical ContentId); logically-equal
maps — the same entries inserted in different orders, with distinct
canonical keys — canonicalize to identical bytes and identical
ContentIds; and any two values with the same canonical encoding that
serialize successfully yield the same ContentId. -/
theorem C2_insert_determinism :
    (∀ (s1 s2 : MemoryStore) (v : Value), (s1.insert v).1 = (s2.insert v).1) ∧
    (∀ l1 l2 : List (Value × Value), List.Perm l1 l2 →
      (l1.map (fun e => (canon e.1).encode)).Nodup →
      serialize_sha256 (.map l1) = serialize_sha256 (.map l2)) ∧
    (∀ v w : Value, (canon v).wf = true → (canon w).wf = true →
      (canon v).encode = (canon w).encode →
      ∃ (c : TaggedCid) (bytes : List Nat),
        serialize_sha256 v = .ok (c, bytes) ∧ serialize_sha256 w = .ok (c, bytes)) := by
  refine ⟨?_, ?_, ?_⟩
  · intro s1 s2 v
    cases h : serialize_sha256 v with
    | error e => rw [MemoryStore.insert_err h, MemoryStore.insert_err h]
    | ok cb =>
      obtain ⟨c, bytes⟩ := cb
      rw [MemoryStore.insert_ok h, MemoryStore.insert_ok h]
  · intro l1 l2 hperm hnodup
    have hkeys : (canonPairs l1).map entryKey = l1.map (fun e => (canon e.1).encode) := by
      rw [canonPairs_eq_map, List.map_map]
      rfl
    have hpc : List.Perm (canonPairs l1) (canonPairs l2) := by
      rw [canonPairs_eq_map l1, canonPairs_eq_map l2]
      exact hperm.map (fun e => (canon e.1, canon e.2))
    have hnd2 : ((canonPairs l1).map entryKey).Nodup := by
      rw [hkeys]
      exact hnodup
    have hcanon : canon (.map l1) = canon (.map l2) := by
      simp only [canon]
      rw [sortEntries_eq_of_perm hpc hnd2]
    simp only [serialize_sha256]
    rw [hcanon]
  · intro v w hv hw henc
    refine ⟨⟨⟨1, codecDagCBOR, mhSHA2256Code :: mhSHA2256Size :: sha256 (canon v).encode⟩⟩,
      (canon v).encode, ?_, ?_⟩
    · simp only [serialize_sha256]
      rw [if_pos hv]
    · simp only [serialize_sha256]
      rw [if_pos hw, ← henc]

/-- Witness for C2 on a concrete two-entry map inserted in both orders. -/
theorem C2_insert_determinism_witness :
    List.Perm
      [((Value.text [99, 97, 116]), Value.int 1), ((Value.text [97]), Value.int 2)]
      [((Value.text [97]), Value.int 2), ((Value.text [99, 97, 116]), Value.int 1)] ∧
    ([((Value.text [99, 97, 116]), Value.int 1),
      ((Value.text [97]), Value.int 2)].map (fun e => (canon e.1).encode)).Nodup ∧
    serialize_sha256 (.map [((Value.text [99, 97, 116]), Value.int 1),
      ((Value.text [97]), Value.int 2)]) =
    serialize_sha256 (.map [((Value.text [97]), Value.int 2),
      ((Value.text [99, 97, 116]), Value.int 1)]) :=
  ⟨List.Perm.swap _ _ _, by decide,
    C2_insert_determinism.2.1 _ _ (List.Perm.swap _ _ _) (by decide)⟩

theorem cidFromBytes_zero_cons (rest : List Nat) : cidFromBytes (0 :: rest) = none := by
  unfold cidFromBytes
  rw [if_neg (by simp [List.take])]
  rw [show varintDecode (0 :: rest) = some (0, rest) from by simp [varintDecode]]
  simp

/-- Claim C6 concerns the link codec round-trip.  The encoding side is as
claimed: tag 42 with payload `[0x00] ++ Cid::to_bytes`.  The decoding
side, however, passes the **whole** payload — multibase marker included —
to `Cid::from`, so the version varint reads 0 and parsing fails: decoding
the encoding of *any* ContentId returns a FormatError instead of the
ContentId. -/
theorem C6_link_roundtrip_broken :
    (∀ t : TaggedCid, t.serialize = .tag 42 (.bytes (0 :: t.cid.to_bytes))) ∧
    (∀ c : Cid, TaggedCid.deserialize (TaggedCid.serialize ⟨c⟩) = .err .cidParse) := by
  refine ⟨fun t => rfl, fun c => ?_⟩
  show TaggedCid.deserialize (.tag 42 (.bytes (0 :: c.to_bytes))) = .err .cidParse
  simp only [TaggedCid.deserialize]
  rw [if_neg (by simp)]
  rw [if_neg (by simp)]
  rw [cidFromBytes_zero_cons]

/-- Claim C7: decode failure modes.  A tag other than 42 is rejected; a
payload whose first byte is not 0 is rejected ("invalid link base"); and
when the identifier bytes do not parse, the failure surfaces as a
FormatError — never a silently produced default value. -/
theorem C7_link_decode_failure_modes :
    (∀ (t : Nat) (bs : List Nat), t ≠ 42 →
      TaggedCid.deserialize (.tag t (.bytes bs)) = .err (.invalidTag t)) ∧
    (∀ (b0 : Nat) (r : List Nat), b0 ≠ 0 →
      TaggedCid.deserialize (.tag 42 (.bytes (b0 :: r))) = .err .invalidLinkBase) ∧
    (∀ r : List Nat, cidFromBytes (0 :: r) = none →
      TaggedCid.deserialize (.tag 42 (.bytes (0 :: r))) = .err .cidParse) := by
  refine ⟨?_, ?_, ?_⟩
  · intro t bs ht
    simp only [TaggedCid.deserialize]
    rw [if_pos ht]
  · intro b0 r hb
    simp only [TaggedCid.deserialize]
    rw [if_neg (by simp)]
    rw [if_pos hb]
  · intro r hr
    simp only [TaggedCid.deserialize]
    rw [if_neg (by simp)]
    rw [if_neg (by simp)]
    rw [hr]

/-- Witness for C7: a wrong tag, a nonzero multibase marker, and
unparseable identifier bytes, each at a concrete input. -/
theorem C7_link_decode_failure_modes_witness :
    TaggedCid.deserialize (.tag 7 (.bytes [0])) = .err (.invalidTag 7) ∧
    TaggedCid.deserialize (.tag 42 (.bytes [5, 1])) = .err .invalidLinkBase ∧
    TaggedCid.deserialize (.tag 42 (.bytes [0, 9])) = .err .cidParse :=
  ⟨C7_link_decode_failure_modes.1 7 [0] (by decide),
    C7_link_decode_failure_modes.2.1 5 [1] (by decide),
    C7_link_decode_failure_modes.2.2 [9] (by decide)⟩

/-- Claim C9 concerns decode totality.  The code indexes `bytes[0]`
before any emptiness check, so a tag-42 value with an empty byte-string
payload panics (out-of-bounds) instead of returning an error result; for
every nonempty payload the decoder is total and never crashes. -/
theorem C9_link_decode_empty_payload :
    TaggedCid.deserialize (.tag 42 (.bytes [])) = .crash ∧
    (∀ (b0 : Nat) (r : List Nat),
      TaggedCid.deserialize (.tag 42 (.bytes (b0 :: r))) ≠ .crash) := by
  constructor
  · rfl
  · intro b0 r
    simp only [TaggedCid.deserialize]
    rw [if_neg (by simp)]
    by_cases hb : b0 ≠ 0
    · rw [if_pos hb]
      simp
    · rw [if_neg hb]
      cases cidFromBytes (b0 :: r) <;> simp

/-- Witness for C9's totality part at a concrete nonempty payload. -/
theorem C9_link_decode_empty_payload_witness :
    TaggedCid.deserialize (.tag 42 (.bytes [5])) ≠ .crash :=
  C9_link_decode_empty_payload.2 5 []
